import Mathlib

/-!
Verification of the A1580 A-scan stream reassembly and packet decoder
(`REST_API_Python/ascan_websocket.py`, class `AScanWebSocketClient`).

Bytes are modelled as natural numbers (Python `bytes` elements are 0..255;
where a claim needs the byte range it is carried as an explicit hypothesis).
The mutable `bytearray` stream buffer is modelled as a `List Nat` threaded
explicitly through the functions.
-/

namespace AScan

/-- `self.MAGIC_BYTES = b'FtH1'` — 0x46, 0x74, 0x48, 0x31 (line 98). -/
def MAGIC_BYTES : List Nat := [70, 116, 72, 49]

/-- `self.HEADER_LENGTH = 28` (line 99). -/
def HEADER_LENGTH : Nat := 28

/-- `packet_size = self.HEADER_LENGTH + 2 * self.ascan_length`
(lines 207-208: Int16 = 2 bytes per sample). -/
def packet_size (ascan_length : Nat) : Nat := HEADER_LENGTH + 2 * ascan_length

/-- `bytearray.find(pattern)` for a byte pattern: the least index `i` such
that `pattern` occurs in `buf` starting at `i`, or `none` when the pattern
does not occur (Python returns -1).  Models `self.stream_buffer.find(self.MAGIC_BYTES)`
at line 213. -/
def find (pat : List Nat) : List Nat → Option Nat
  | [] => if pat.isPrefixOf ([] : List Nat) then some 0 else none
  | b :: rest =>
    if pat.isPrefixOf (b :: rest) then some 0
    else (find pat rest).map (· + 1)

/-- The `while True:` extraction loop of `_process_incoming_data`
(lines 211-245), acting on an already-extended buffer.  Returns the list of
ready packet-sized slices (each `bytes(self.stream_buffer[:packet_size])`,
line 232), in order, together with the final buffer contents.

Line-by-line: line 213 `find`; lines 215-220 the no-marker branch with the
`len > packet_size * 2` truncation to `self.stream_buffer[-packet_size:]`;
lines 222-224 discarding the bytes before the marker (`drop i`, which is the
identity when `i = 0`, exactly as the guarded Python assignment); lines
226-229 waiting when fewer than `packet_size` bytes remain; lines 231-245
slicing out one packet and looping on the remainder. -/
def extract_ready (al : Nat) (buf : List Nat) : List (List Nat) × List Nat :=
  match find MAGIC_BYTES buf with
  | none =>
    if packet_size al * 2 < buf.length then
      ([], buf.drop (buf.length - packet_size al))
    else
      ([], buf)
  | some i =>
    if h : (buf.drop i).length < packet_size al then
      ([], buf.drop i)
    else
      let rest := extract_ready al ((buf.drop i).drop (packet_size al))
      ((buf.drop i).take (packet_size al) :: rest.1, rest.2)
termination_by buf.length
decreasing_by
  simp only [List.length_drop] at h ⊢
  have hps : 28 ≤ packet_size al := by
    simp [packet_size, HEADER_LENGTH]
  omega

/-- One call of `_process_incoming_data(data_block)` (lines 191-245):
append the chunk to the buffer (line 204) and run the extraction loop.
Returns the ready slices and the new buffer. -/
def _process_incoming_data (al : Nat) (buf chunk : List Nat) :
    List (List Nat) × List Nat :=
  extract_ready al (buf ++ chunk)

/-- Successive `_process_incoming_data` calls, one per transport chunk,
starting from buffer `buf`; collects all ready slices in order. -/
def runChunks (al : Nat) (buf : List Nat) : List (List Nat) → List (List Nat) × List Nat
  | [] => ([], buf)
  | c :: cs =>
    let r1 := _process_incoming_data al buf c
    let r2 := runChunks al r1.2 cs
    (r1.1 ++ r2.1, r2.2)

/-! ## Packet decoder (`_parse_packet`, lines 247-313) -/

/-- The header dictionary built at lines 283-297 from
`struct.unpack('<4s3IH2B6B2B', packet_data[:28])`. -/
structure Header where
  magic : List Nat
  ctp : List Nat
  length_lo : Nat
  length_hi : Nat
  packet_number : Nat
  telemetry_a : Nat
  telemetry_b : Nat
  telemetry_c : Nat
  is_full : Nat
  buffer_fill : Nat
  ascan_count : Nat
  reserved_b : Nat
  reserved_c : Nat
  deriving DecidableEq, Repr

/-- The dictionary returned at lines 307-313.  `timestamp` records the value
of the real-time clock (`time.time()`) at decode time; the clock reading is
made an explicit input `now` of the decode function. -/
structure Packet where
  header : Header
  data : List Int
  vector_length : Nat
  packet_size : Nat
  timestamp : Int
  deriving DecidableEq, Repr

/-- Outcome of `_parse_packet`: a parsed dictionary, the `return None` at
line 275 (slice shorter than the 28-byte header), or a `struct.error`
exception escaping the function (raised by `struct.unpack(f'<{n}h', data_bytes)`
at line 305 when `len(data_bytes)` is odd, since `unpack` requires the buffer
length to equal `calcsize` exactly).  The caller distinguishes the three:
`ok` is delivered to callbacks and counted in `packets_received`,
`noneResult` is silently skipped, `structError` is caught at lines 240-242
and counted in `parse_errors`. -/
inductive ParseOutcome where
  | ok (p : Packet)
  | noneResult
  | structError
  deriving DecidableEq, Repr

/-- Byte access `packet_data[i]` (in-range whenever the 28-byte guard has
passed; the default is never read at the offsets used). -/
def get8 (s : List Nat) (i : Nat) : Nat := s.getD i 0

/-- Little-endian `u16` at offset `i` (struct format `H`). -/
def u16LE (s : List Nat) (i : Nat) : Nat := get8 s i + 256 * get8 s (i + 1)

/-- Little-endian `u32` at offset `i` (struct format `I`). -/
def u32LE (s : List Nat) (i : Nat) : Nat :=
  get8 s i + 256 * get8 s (i + 1) + 65536 * get8 s (i + 2) +
    16777216 * get8 s (i + 3)

/-- Little-endian signed 16-bit value from two bytes (struct format `h`). -/
def i16ofBytes (b0 b1 : Nat) : Int :=
  let n := b0 + 256 * b1
  if n < 32768 then (n : Int) else (n : Int) - 65536

/-- `struct.unpack(f'<{num_samples}h', data_bytes)` on an even-length byte
list: consecutive little-endian signed 16-bit samples. -/
def decodeSamples : List Nat → List Int
  | b0 :: b1 :: rest => i16ofBytes b0 b1 :: decodeSamples rest
  | _ => []

/-- `_parse_packet(packet_data)` (lines 247-313) with the clock reading
`now` passed explicitly.  Header fields follow the struct layout
`<4s3IH2B6B2B`: magic at 0 (4 raw bytes), three u32 at 4/8/12, u16 at 16,
then ten u8 at 17..27 as documented at lines 252-265. -/
def _parse_packet (now : Int) (packet_data : List Nat) : ParseOutcome :=
  if packet_data.length < HEADER_LENGTH then
    .noneResult
  else if (packet_data.length - HEADER_LENGTH) % 2 ≠ 0 then
    .structError
  else
    let data := decodeSamples (packet_data.drop HEADER_LENGTH)
    .ok {
      header := {
        magic := packet_data.take 4
        ctp := [u32LE packet_data 4, u32LE packet_data 8, u32LE packet_data 12]
        length_lo := u16LE packet_data 16
        length_hi := get8 packet_data 18
        packet_number := get8 packet_data 19
        telemetry_a := get8 packet_data 20
        telemetry_b := get8 packet_data 21
        telemetry_c := get8 packet_data 22
        is_full := get8 packet_data 23
        buffer_fill := get8 packet_data 24
        ascan_count := get8 packet_data 25
        reserved_b := get8 packet_data 26
        reserved_c := get8 packet_data 27 }
      data := data
      vector_length := data.length
      packet_size := packet_data.length
      timestamp := now }

/-! ## Client state and the receive step (statistics bookkeeping) -/

/-- The fields of `AScanWebSocketClient` the data path touches:
`ascan_length` (line 92), `stream_buffer` (line 100) and the statistics
counters (lines 102-105).  `ascan_length` is kept as a `Nat`: the
constructor default is 1024 and `set_ascan_length` only ever stores
strictly positive values. -/
structure ClientState where
  ascan_length : Nat
  stream_buffer : List Nat
  packets_received : Nat
  bytes_received : Nat
  parse_errors : Nat
  deriving DecidableEq, Repr

/-- Whether a parse outcome is a delivered packet (`if packet:` line 237). -/
def ParseOutcome.toPacket : ParseOutcome → Option Packet
  | .ok p => some p
  | _ => none

/-- Whether a parse outcome is an escaped exception (lines 240-242). -/
def ParseOutcome.isError : ParseOutcome → Bool
  | .structError => true
  | _ => false

/-- One received WebSocket message: the `_receive_loop` body (lines 174-178,
`bytes_received += len(data)` then `_process_incoming_data(data)`) together
with the per-slice bookkeeping of lines 235-242: each ready slice is parsed;
an `ok` outcome increments `packets_received` and is delivered to callbacks
(returned here), a `structError` increments `parse_errors`, a `None` result
is skipped.  Parsing a slice never touches the buffer, so extraction and
per-slice accounting are composed sequentially, extensionally equal to the
interleaved source loop. -/
def receive_message (now : Int) (c : ClientState) (data : List Nat) :
    ClientState × List Packet :=
  let r := extract_ready c.ascan_length (c.stream_buffer ++ data)
  let outs := r.1.map (_parse_packet now)
  let delivered := outs.filterMap ParseOutcome.toPacket
  ({ ascan_length := c.ascan_length
     stream_buffer := r.2
     packets_received := c.packets_received + delivered.length
     bytes_received := c.bytes_received + data.length
     parse_errors := c.parse_errors + outs.countP ParseOutcome.isError },
   delivered)

/-- `set_ascan_length(length)` (lines 370-394): update `ascan_length` and
clear the buffer only when `length > 0 and length != self.ascan_length`;
otherwise do nothing.  The argument is a Python `int`, modelled as `Int`;
on the update branch it is positive, so storing `length.toNat` is exact. -/
def set_ascan_length (c : ClientState) (length : Int) : ClientState :=
  if 0 < length ∧ length ≠ (c.ascan_length : Int) then
    { c with ascan_length := length.toNat, stream_buffer := [] }
  else
    c

/-- A valid packet byte sequence for configuration `al`: exactly
`packet_size al` bytes, beginning with the 4-byte marker, all bytes in
byte range. -/
def ValidPkt (al : Nat) (P : List Nat) : Prop :=
  P.length = packet_size al ∧ MAGIC_BYTES <+: P ∧ ∀ b ∈ P, b < 256

/-! ## Wire-layout packet constructor (test fixture side)

Encoders for the bit-exact little-endian wire format of spec section 6,
used to build the known-header/known-samples slices that the round-trip
claim decodes. -/

/-- Little-endian bytes of an unsigned 16-bit value. -/
def u16Bytes (v : Nat) : List Nat := [v % 256, v / 256 % 256]

/-- Little-endian bytes of an unsigned 32-bit value. -/
def u32Bytes (v : Nat) : List Nat :=
  [v % 256, v / 256 % 256, v / 65536 % 256, v / 16777216 % 256]

/-- Little-endian bytes of a signed 16-bit sample (two's complement). -/
def i16Bytes (v : Int) : List Nat :=
  [(v % 65536).toNat % 256, (v % 65536).toNat / 256]

/-- Wire encoding of a header per the layout table: magic at 0, three u32
at 4/8/12, u16 length_lo at 16, then the ten u8 fields at 18..27. -/
def encodeHeader (h : Header) : List Nat :=
  h.magic ++ (h.ctp.map u32Bytes).flatten ++ u16Bytes h.length_lo ++
    [h.length_hi, h.packet_number, h.telemetry_a, h.telemetry_b,
     h.telemetry_c, h.is_full, h.buffer_fill, h.ascan_count,
     h.reserved_b, h.reserved_c]

/-- Wire encoding of a whole packet: header followed by the little-endian
signed 16-bit samples. -/
def encodePacket (h : Header) (samples : List Int) : List Nat :=
  encodeHeader h ++ (samples.map i16Bytes).flatten

/-- The concrete fixture header of the spec scenario: `packet_number = 7`,
every other non-magic field zero. -/
def fixHeader : Header :=
  { magic := MAGIC_BYTES, ctp := [0, 0, 0], length_lo := 0, length_hi := 0
    packet_number := 7, telemetry_a := 0, telemetry_b := 0, telemetry_c := 0
    is_full := 0, buffer_fill := 0, ascan_count := 0
    reserved_b := 0, reserved_c := 0 }

/-- The concrete 36-byte fixture packet (`ascan_length = 4`) with samples
`[100, -100, 32767, -32768]`. -/
def fixPacket : List Nat := encodePacket fixHeader [100, -100, 32767, -32768]

/-! ## Helper lemmas about `find` -/

theorem isPrefixOf_iff (l1 l2 : List Nat) : l1.isPrefixOf l2 = true ↔ l1 <+: l2 :=
  List.isPrefixOf_iff_prefix

theorem find_eq_none_of_length_lt {pat : List Nat} :
    ∀ {buf : List Nat}, buf.length < pat.length → find pat buf = none := by
  intro buf
  induction buf with
  | nil =>
    intro h
    have hne : ¬ pat <+: ([] : List Nat) := by
      intro hp
      have := hp.length_le
      simp only [List.length_nil, List.length_cons] at this h
      omega
    simp [find, (isPrefixOf_iff pat _).not.mpr hne]
  | cons b rest ih =>
    intro h
    have hne : ¬ pat <+: (b :: rest) := by
      intro hp
      have := hp.length_le
      simp only [List.length_nil, List.length_cons] at this h
      omega
    have hr : rest.length < pat.length := by
      simp at h
      omega
    simp [find, (isPrefixOf_iff pat _).not.mpr hne, ih hr]

theorem find_eq_some_zero {pat buf : List Nat} (h : pat <+: buf) :
    find pat buf = some 0 := by
  cases buf with
  | nil => simp [find, (isPrefixOf_iff pat _).mpr h]
  | cons b rest => simp [find, (isPrefixOf_iff pat _).mpr h]

theorem find_eq_some_iff {pat : List Nat} :
    ∀ {buf : List Nat} {i : Nat},
      find pat buf = some i ↔
        (pat <+: buf.drop i ∧ ∀ j < i, ¬ pat <+: buf.drop j) := by
  intro buf
  induction buf with
  | nil =>
    intro i
    by_cases hp : pat <+: ([] : List Nat)
    · simp only [find, (isPrefixOf_iff pat _).mpr hp, if_pos rfl]
      constructor
      · intro h
        cases h
        simpa using hp
      · rintro ⟨h1, h2⟩
        rcases Nat.eq_zero_or_pos i with rfl | hi
        · rfl
        · exact absurd (by simpa using hp) (h2 0 hi)
    · rw [find, if_neg ((isPrefixOf_iff pat _).not.mpr hp)]
      constructor
      · intro h
        cases h
      · rintro ⟨h1, h2⟩
        exact absurd (by simpa using h1) hp
  | cons b rest ih =>
    intro i
    by_cases hp : pat <+: (b :: rest)
    · rw [find, if_pos ((isPrefixOf_iff pat _).mpr hp)]
      constructor
      · intro h
        cases h
        exact ⟨by simpa using hp, by omega⟩
      · rintro ⟨h1, h2⟩
        rcases Nat.eq_zero_or_pos i with rfl | hi
        · rfl
        · exact absurd (by simpa using hp) (h2 0 hi)
    · rw [find, if_neg ((isPrefixOf_iff pat _).not.mpr hp)]
      constructor
      · intro h
        rcases Option.map_eq_some'.mp h with ⟨i', hi', rfl⟩
        rcases ih.mp hi' with ⟨h1, h2⟩
        refine ⟨by simpa using h1, ?_⟩
        intro j hj
        cases j with
        | zero => simpa using hp
        | succ k =>
          have : k < i' := by omega
          simpa using h2 k this
      · rintro ⟨h1, h2⟩
        cases i with
        | zero => exact absurd (by simpa using h1) hp
        | succ k =>
          have hk : find pat rest = some k := by
            apply ih.mpr
            refine ⟨by simpa using h1, ?_⟩
            intro j hj
            have := h2 (j + 1) (by omega)
            simpa using this
          simp [hk]

theorem find_eq_none_iff {pat : List Nat} {buf : List Nat} :
    find pat buf = none ↔ ∀ i, ¬ pat <+: buf.drop i := by
  constructor
  · intro h i hp
    induction i using Nat.strong_induction_on generalizing h with
    | _ i ih => ?_
    by_cases hall : ∀ j < i, ¬ pat <+: buf.drop j
    · rw [find_eq_some_iff.mpr ⟨hp, hall⟩] at h
      cases h
    · push_neg at hall
      rcases hall with ⟨j, hj, hpj⟩
      exact ih j hj h hpj
  · intro h
    cases hf : find pat buf with
    | none => rfl
    | some i => exact absurd (find_eq_some_iff.mp hf).1 (h i)

/-! ## Helper lemmas about `extract_ready` -/

theorem MAGIC_BYTES_length : MAGIC_BYTES.length = 4 := by decide

theorem packet_size_ge (al : Nat) : 28 ≤ packet_size al := by
  simp [packet_size, HEADER_LENGTH]

/-- On a buffer holding a strict prefix of a valid packet, extraction is the
identity: it waits for more data. -/
theorem extract_ready_partial (al : Nat) {t r Q : List Nat}
    (hQlen : Q.length = packet_size al) (hQpfx : MAGIC_BYTES <+: Q)
    (htr : t ++ r = Q) (hr : r ≠ []) :
    extract_ready al t = ([], t) := by
  have hps := packet_size_ge al
  have htlen : t.length < packet_size al := by
    have hlen := congrArg List.length htr
    simp only [List.length_append] at hlen
    have hrpos : 0 < r.length := List.length_pos.mpr hr
    omega
  by_cases h4 : t.length < 4
  · have hfind : find MAGIC_BYTES t = none :=
      find_eq_none_of_length_lt (by rw [MAGIC_BYTES_length]; omega)
    rw [extract_ready.eq_def, hfind]
    have : ¬ packet_size al * 2 < t.length := by omega
    simp [this]
  · have htpfx : MAGIC_BYTES <+: t := by
      apply List.prefix_of_prefix_length_le hQpfx _ (by rw [MAGIC_BYTES_length]; omega)
      exact ⟨r, htr⟩
    have hfind : find MAGIC_BYTES t = some 0 := find_eq_some_zero htpfx
    rw [extract_ready.eq_def, hfind]
    simp [htlen]

/-- The empty buffer stays empty and yields nothing. -/
theorem extract_ready_empty (al : Nat) : extract_ready al [] = ([], []) := by
  have hfind : find MAGIC_BYTES [] = none :=
    find_eq_none_of_length_lt (by rw [MAGIC_BYTES_length]; simp)
  rw [extract_ready.eq_def, hfind]
  simp

/-- Extraction on a buffer that is a concatenation of whole valid packets
followed by a strict prefix of a valid packet yields exactly those packets,
in order, and retains the partial prefix. -/
theorem extract_ready_flatten (al : Nat) :
    ∀ (L : List (List Nat)) (t : List Nat),
      (∀ Q ∈ L, Q.length = packet_size al ∧ MAGIC_BYTES <+: Q) →
      (∃ Q r, Q.length = packet_size al ∧ MAGIC_BYTES <+: Q ∧
        t ++ r = Q ∧ r ≠ []) →
      extract_ready al (L.flatten ++ t) = (L, t) := by
  intro L
  induction L with
  | nil =>
    intro t _ ⟨Q, r, hQlen, hQpfx, htr, hr⟩
    simpa using extract_ready_partial al hQlen hQpfx htr hr
  | cons Q L' ih =>
    intro t hall hpart
    have hQ := hall Q (by simp)
    have hQlen := hQ.1
    have hQpfx := hQ.2
    have hbuf : (Q :: L').flatten ++ t = Q ++ (L'.flatten ++ t) := by
      simp
    rw [hbuf]
    have hpfxbuf : MAGIC_BYTES <+: Q ++ (L'.flatten ++ t) :=
      hQpfx.trans (List.prefix_append Q (L'.flatten ++ t))
    have hfind : find MAGIC_BYTES (Q ++ (L'.flatten ++ t)) = some 0 :=
      find_eq_some_zero hpfxbuf
    rw [extract_ready.eq_def, hfind]
    have hlen : ¬ (Q ++ (L'.flatten ++ t)).length < packet_size al := by
      simp only [List.length_append]
      omega
    have htake : (Q ++ (L'.flatten ++ t)).take (packet_size al) = Q := by
      rw [← hQlen, List.take_left]
    have hdrop : (Q ++ (L'.flatten ++ t)).drop (packet_size al) = L'.flatten ++ t := by
      rw [← hQlen, List.drop_left]
    simp only [List.drop_zero, dif_neg hlen, htake, hdrop]
    rw [ih t (fun R hR => hall R (by simp [hR])) hpart]

/-- Any split of a `m`-fold repetition of a nonempty block `P` decomposes
into whole leading blocks plus (either a strict partial block with the
matching continuation, or nothing left at all). -/
theorem replicate_flatten_split {P : List Nat} (hP : P ≠ []) :
    ∀ (m : Nat) (x y : List Nat),
      x ++ y = (List.replicate m P).flatten →
      (∃ q t2 r2, q < m ∧ x = (List.replicate q P).flatten ++ t2 ∧
          t2 ++ r2 = P ∧ r2 ≠ [] ∧
          y = r2 ++ (List.replicate (m - q - 1) P).flatten) ∨
      (x = (List.replicate m P).flatten ∧ y = []) := by
  intro m
  induction m with
  | zero =>
    intro x y hxy
    simp only [List.replicate, List.flatten_nil] at hxy ⊢
    rcases List.append_eq_nil.mp hxy with ⟨rfl, rfl⟩
    exact Or.inr ⟨rfl, rfl⟩
  | succ m ih =>
    intro x y hxy
    rw [List.replicate_succ, List.flatten_cons] at hxy
    by_cases hlen : x.length < P.length
    · left
      have htx : x = P.take x.length := by
        have h1 : x = (x ++ y).take x.length := by simp
        rw [hxy, List.take_append_eq_append_take] at h1
        have h0 : x.length - P.length = 0 := by omega
        rw [h0] at h1
        simpa using h1
      refine ⟨0, x, P.drop x.length, by omega, by simp, ?_, ?_, ?_⟩
      · set n := x.length with hn
        rw [htx]
        exact List.take_append_drop n P
      · intro hd
        have := congrArg List.length hd
        simp at this
        omega
      · have h1 : y = (x ++ y).drop x.length := by simp
        rw [hxy, List.drop_append_eq_append_drop] at h1
        have h0 : x.length - P.length = 0 := by omega
        rw [h0] at h1
        simp only [List.drop_zero] at h1
        simpa using h1
    · push_neg at hlen
      have hx : x = P ++ x.drop P.length := by
        have htk : x.take P.length = P := by
          have h1 : x.take P.length = (x ++ y).take P.length := by
            rw [List.take_append_eq_append_take]
            have h0 : P.length - x.length = 0 := by omega
            rw [h0]
            simp
          rw [hxy, List.take_append_eq_append_take] at h1
          simpa using h1
        conv_lhs => rw [← List.take_append_drop P.length x]
        rw [htk]
      have hx' : x.drop P.length ++ y = (List.replicate m P).flatten := by
        have h2 := congrArg (List.drop P.length) hxy
        rw [List.drop_append_eq_append_drop, List.drop_append_eq_append_drop] at h2
        have h0 : P.length - x.length = 0 := by omega
        simp only [h0, Nat.sub_self, List.drop_zero, List.drop_length,
          List.nil_append] at h2
        exact h2
      rcases ih (x.drop P.length) y hx' with ⟨q, t2, r2, hq, hxd, htr, hr2, hy⟩ | ⟨hxd, hy⟩
      · left
        refine ⟨q + 1, t2, r2, by omega, ?_, htr, hr2, ?_⟩
        · rw [hx, hxd, List.replicate_succ, List.flatten_cons, List.append_assoc]
        · have : m + 1 - (q + 1) - 1 = m - q - 1 := by omega
          rw [this, hy]
      · right
        constructor
        · rw [hx, hxd, List.replicate_succ, List.flatten_cons]
        · exact hy

/-- If every chunk is empty, nothing happens. -/
theorem runChunks_all_empty (al : Nat) :
    ∀ (cs : List (List Nat)), cs.flatten = [] →
      runChunks al [] cs = ([], []) := by
  intro cs
  induction cs with
  | nil => intro _; rfl
  | cons c cs' ih =>
    intro h
    rw [List.flatten_cons] at h
    rcases List.append_eq_nil.mp h with ⟨rfl, h'⟩
    simp only [runChunks, _process_incoming_data, List.append_nil, List.nil_append,
      extract_ready_empty, ih h']

/-- Core chunked-run lemma: starting from a buffer holding a strict prefix
`t` of the packet `P`, if the remaining chunks deliver exactly the rest of
that packet followed by `m` further copies of `P`, every one of those
`m + 1` packets is yielded, in order, and the buffer ends empty. -/
theorem runChunks_replicate (al : Nat) (P : List Nat)
    (hPlen : P.length = packet_size al) (hPpfx : MAGIC_BYTES <+: P) :
    ∀ (chunks : List (List Nat)) (t rest : List Nat) (m : Nat),
      t ++ rest = P → rest ≠ [] →
      chunks.flatten = rest ++ (List.replicate m P).flatten →
      runChunks al t chunks = (List.replicate (m + 1) P, []) := by
  have hPne : P ≠ [] := by
    intro h
    have := congrArg List.length h
    have hps := packet_size_ge al
    simp [hPlen] at this
    omega
  intro chunks
  induction chunks with
  | nil =>
    intro t rest m htr hrest hflat
    simp only [List.flatten_nil] at hflat
    exact absurd (List.append_eq_nil.mp hflat.symm).1 hrest
  | cons c cs ih =>
    intro t rest m htr hrest hflat
    rw [List.flatten_cons] at hflat
    have hbig : (t ++ c) ++ cs.flatten = (List.replicate (m + 1) P).flatten := by
      rw [List.replicate_succ, List.flatten_cons, List.append_assoc, hflat,
        ← List.append_assoc, htr]
    rcases replicate_flatten_split hPne (m + 1) (t ++ c) cs.flatten hbig with
      ⟨q, t2, r2, hq, hx, htr2, hr2, hy⟩ | ⟨hx, hy⟩
    · have hpass : extract_ready al (t ++ c) = (List.replicate q P, t2) := by
        rw [hx]
        exact extract_ready_flatten al (List.replicate q P) t2
          (fun Q hQ => by
            rw [List.eq_of_mem_replicate hQ]
            exact ⟨hPlen, hPpfx⟩)
          ⟨P, r2, hPlen, hPpfx, htr2, hr2⟩
      have hrec : runChunks al t2 cs = (List.replicate (m - q + 1) P, []) := by
        apply ih t2 r2 (m - q) htr2 hr2
        have : m + 1 - q - 1 = m - q := by omega
        rw [hy, this]
      simp only [runChunks, _process_incoming_data, hpass, hrec]
      rw [← List.replicate_add]
      have h7 : q + (m - q + 1) = m + 1 := by omega
      rw [h7]
    · have hpass : extract_ready al (t ++ c) = (List.replicate (m + 1) P, []) := by
        rw [hx]
        have := extract_ready_flatten al (List.replicate (m + 1) P) []
          (fun Q hQ => by
            rw [List.eq_of_mem_replicate hQ]
            exact ⟨hPlen, hPpfx⟩)
          ⟨P, P, hPlen, hPpfx, by simp, hPne⟩
        simpa using this
      simp only [runChunks, _process_incoming_data, hpass,
        runChunks_all_empty al cs hy]
      simp

/-! ## Claim C1 -/

/-- Claim C1: for every valid packet byte sequence `P` concatenated `K`
times (`K ≥ 1`, each packet beginning with the 4-byte marker and of length
`packet_size = 28 + 2 * ascan_length`), and for every way of splitting the
concatenation into chunks passed to successive ingest calls, the Accumulator
yields exactly `K` ready packet-sized slices, in order, each equal to the
corresponding original packet, once all bytes have been ingested (and the
buffer ends empty). -/
theorem accumulator_chunking_complete (al K : Nat) (P : List Nat)
    (chunks : List (List Nat)) (hK : 1 ≤ K) (hP : ValidPkt al P)
    (hchunks : chunks.flatten = (List.replicate K P).flatten) :
    runChunks al [] chunks = (List.replicate K P, []) := by
  obtain ⟨hPlen, hPpfx, -⟩ := hP
  obtain ⟨K', rfl⟩ : ∃ K', K = K' + 1 := ⟨K - 1, by omega⟩
  have hP' : P ≠ [] := by
    intro h
    have := congrArg List.length h
    have hps := packet_size_ge al
    simp [hPlen] at this
    omega
  exact runChunks_replicate al P hPlen hPpfx chunks [] P K' (by simp) hP'
    (by rw [hchunks, List.replicate_succ, List.flatten_cons])

/-- Witness for C1: one 28-byte packet (`ascan_length = 0`) delivered in
two chunks of 10 and 18 bytes yields exactly that packet. -/
theorem accumulator_chunking_complete_witness :
    runChunks 0 []
        [(MAGIC_BYTES ++ List.replicate 24 0).take 10,
         (MAGIC_BYTES ++ List.replicate 24 0).drop 10] =
      (List.replicate 1 (MAGIC_BYTES ++ List.replicate 24 0), []) :=
  accumulator_chunking_complete 0 1 (MAGIC_BYTES ++ List.replicate 24 0)
    [(MAGIC_BYTES ++ List.replicate 24 0).take 10,
     (MAGIC_BYTES ++ List.replicate 24 0).drop 10]
    (by decide) (by unfold ValidPkt; exact ⟨by decide, by decide, by decide⟩)
    (by decide)

/-! ## Claim C3 -/

/-- Claim C3: for every buffer state containing no occurrence of the
marker: if the buffer length exceeds `2 * packet_size`, the next extraction
pass truncates it to exactly the trailing `packet_size` bytes and yields
zero ready slices; if the buffer length is within that bound, the buffer is
left unmodified and zero slices are yielded.  Hence buffer length after
the pass is at most `2 * packet_size`, and at most `packet_size` when the
bound was exceeded. -/
theorem no_marker_truncation (al : Nat) (buf : List Nat)
    (hnone : ∀ i, ¬ MAGIC_BYTES <+: buf.drop i) :
    (packet_size al * 2 < buf.length →
      extract_ready al buf = ([], buf.drop (buf.length - packet_size al)) ∧
      (buf.drop (buf.length - packet_size al)).length = packet_size al) ∧
    (buf.length ≤ packet_size al * 2 → extract_ready al buf = ([], buf)) ∧
    (extract_ready al buf).1 = [] ∧
    (extract_ready al buf).2.length ≤ packet_size al * 2 ∧
    (packet_size al * 2 < buf.length →
      (extract_ready al buf).2.length ≤ packet_size al) := by
  have hfind : find MAGIC_BYTES buf = none := find_eq_none_iff.mpr hnone
  have heq : extract_ready al buf =
      ([], if packet_size al * 2 < buf.length then
        buf.drop (buf.length - packet_size al) else buf) := by
    rw [extract_ready.eq_def, hfind]
    by_cases hbig : packet_size al * 2 < buf.length
    · rw [if_pos hbig, if_pos hbig]
    · rw [if_neg hbig, if_neg hbig]
  by_cases hbig : packet_size al * 2 < buf.length
  · have hlen : (buf.drop (buf.length - packet_size al)).length = packet_size al := by
      simp only [List.length_drop]
      omega
    rw [heq, if_pos hbig]
    exact ⟨fun _ => ⟨rfl, hlen⟩, fun h => absurd hbig (by omega), rfl,
      by simp only [hlen]; omega, fun _ => le_of_eq hlen⟩
  · rw [heq, if_neg hbig]
    exact ⟨fun h => absurd h hbig, fun _ => rfl, rfl, by simp only; omega,
      fun h => absurd h hbig⟩

/-- Witness for C3: 57 untacked zero bytes with `packet_size = 28`
(`ascan_length = 0`) exceed the `2 × 28` bound, so the pass keeps exactly
the trailing 28 bytes and yields nothing. -/
theorem no_marker_truncation_witness :
    extract_ready 0 (List.replicate 57 0) =
        ([], (List.replicate 57 0).drop (57 - packet_size 0)) ∧
      ((List.replicate 57 0).drop (57 - packet_size 0)).length = packet_size 0 := by
  have h := no_marker_truncation 0 (List.replicate 57 0) (by
    intro i hp
    have h1 : (70 : Nat) ∈ (List.replicate 57 (0 : Nat)).drop i :=
      hp.subset (by decide)
    have h2 := List.eq_of_mem_replicate (List.mem_of_mem_drop h1)
    exact absurd h2 (by decide))
  have h2 := h.1 (by decide)
  simpa using h2

/-! ## Claim C4 -/

/-- Buffer state characterization after an extraction pass: empty, or
marker-aligned strict partial packet, or marker-free and bounded. -/
theorem extract_ready_buffer_cases (al : Nat) (buf : List Nat) :
    (extract_ready al buf).2 = [] ∨
    (MAGIC_BYTES <+: (extract_ready al buf).2 ∧
      (extract_ready al buf).2.length < packet_size al) ∨
    ((∀ i, ¬ MAGIC_BYTES <+: ((extract_ready al buf).2).drop i) ∧
      (extract_ready al buf).2.length ≤ 2 * packet_size al) := by
  induction buf using extract_ready.induct al with
  | case1 x hfind hbig =>
    rw [extract_ready.eq_def, hfind]
    simp only [if_pos hbig]
    right; right
    have hnone := find_eq_none_iff.mp hfind
    constructor
    · intro i hp
      rw [List.drop_drop] at hp
      exact hnone _ hp
    · simp only [List.length_drop]
      have := packet_size_ge al
      omega
  | case2 x hfind hbig =>
    rw [extract_ready.eq_def, hfind]
    simp only [if_neg hbig]
    right; right
    exact ⟨find_eq_none_iff.mp hfind, by omega⟩
  | case3 x i hfind hshort =>
    rw [extract_ready.eq_def, hfind]
    simp only [dif_pos hshort]
    right; left
    exact ⟨(find_eq_some_iff.mp hfind).1, hshort⟩
  | case4 x i hfind hshort ih =>
    rw [extract_ready.eq_def, hfind]
    simp only [dif_neg hshort]
    exact ih

/-- Claim C4: after every completed extraction pass (for every prior buffer
content and every ingested chunk), the internal buffer is empty, or begins
with the 4-byte marker and is shorter than `packet_size` (an in-progress
partial packet), or contains no occurrence of the marker and is of length
at most `2 * packet_size`. -/
theorem buffer_invariant (al : Nat) (prior chunk : List Nat) :
    (_process_incoming_data al prior chunk).2 = [] ∨
    (MAGIC_BYTES <+: (_process_incoming_data al prior chunk).2 ∧
      (_process_incoming_data al prior chunk).2.length < packet_size al) ∨
    ((∀ i, ¬ MAGIC_BYTES <+:
        ((_process_incoming_data al prior chunk).2).drop i) ∧
      (_process_incoming_data al prior chunk).2.length ≤ 2 * packet_size al) :=
  extract_ready_buffer_cases al (prior ++ chunk)

/-! ## Helper lemmas about the decoder -/

theorem decodeSamples_length : ∀ (l : List Nat),
    (decodeSamples l).length = l.length / 2
  | [] => by simp [decodeSamples]
  | [b] => by simp [decodeSamples]
  | b0 :: b1 :: rest => by
    simp only [decodeSamples, List.length_cons, decodeSamples_length rest]
    omega

theorem decodeSamples_getD : ∀ (l : List Nat) (k : Nat), k < l.length / 2 →
    (decodeSamples l).getD k 0 =
      i16ofBytes (l.getD (2 * k) 0) (l.getD (2 * k + 1) 0)
  | [], k, h => by simp at h
  | [b], k, h => by
    simp only [List.length_cons, List.length_nil] at h
    omega
  | b0 :: b1 :: rest, 0, h => by
    simp [decodeSamples]
  | b0 :: b1 :: rest, k + 1, h => by
    have hk : k < rest.length / 2 := by
      simp only [List.length_cons] at h
      omega
    rw [show 2 * (k + 1) = 2 * k + 1 + 1 from by ring]
    simp only [decodeSamples, List.getD_cons_succ]
    exact decodeSamples_getD rest k hk

theorem get8_drop (s : List Nat) (n j : Nat) :
    get8 (s.drop n) j = get8 s (n + j) := by
  simp [get8, List.getD_eq_getElem?_getD, List.getElem?_drop]

/-- Reduction of `_parse_packet` on a slice of at least 28 bytes with an
even number of payload bytes. -/
theorem parse_packet_ok_eq (now : Int) (s : List Nat) (h28 : 28 ≤ s.length)
    (heven : (s.length - 28) % 2 = 0) :
    _parse_packet now s = .ok {
      header := {
        magic := s.take 4
        ctp := [u32LE s 4, u32LE s 8, u32LE s 12]
        length_lo := u16LE s 16
        length_hi := get8 s 18
        packet_number := get8 s 19
        telemetry_a := get8 s 20
        telemetry_b := get8 s 21
        telemetry_c := get8 s 22
        is_full := get8 s 23
        buffer_fill := get8 s 24
        ascan_count := get8 s 25
        reserved_b := get8 s 26
        reserved_c := get8 s 27 }
      data := decodeSamples (s.drop 28)
      vector_length := (decodeSamples (s.drop 28)).length
      packet_size := s.length
      timestamp := now } := by
  unfold _parse_packet HEADER_LENGTH
  rw [if_neg (by omega), if_neg (by simpa using heven)]

/-! ## Claim C6 -/

/-- Claim C6: for every input slice shorter than the fixed 28-byte header
size, decode fails with the too-short failure kind (the `return None`
branch) and produces no decoded packet; for every slice of at least 28
bytes, this failure branch is not taken. -/
theorem decode_short_slice (now : Int) (s : List Nat) :
    (s.length < 28 → _parse_packet now s = .noneResult) ∧
    (28 ≤ s.length → _parse_packet now s ≠ .noneResult) := by
  constructor
  · intro h
    unfold _parse_packet HEADER_LENGTH
    rw [if_pos (by omega)]
  · intro h
    unfold _parse_packet HEADER_LENGTH
    rw [if_neg (by omega)]
    by_cases hodd : (s.length - 28) % 2 ≠ 0
    · simp only [if_pos hodd]
      intro hc
      cases hc
    · simp only [if_neg hodd]
      intro hc
      cases hc

/-- Witness for C6: the empty slice returns the none result; a 28-byte
slice does not. -/
theorem decode_short_slice_witness :
    _parse_packet 0 [] = .noneResult ∧
    _parse_packet 0 (List.replicate 28 0) ≠ .noneResult :=
  ⟨(decode_short_slice 0 []).1 (by decide),
   (decode_short_slice 0 (List.replicate 28 0)).2 (by decide)⟩

/-! ## Claim C7 (corrected) -/

/-- Counterexample to C7 as stated: on a 29-byte slice (one trailing odd
payload byte) the decoder does not succeed with the byte ignored — the
exact-length `struct.unpack(f'<{n}h', data_bytes)` raises `struct.error`,
so decode fails. -/
theorem odd_slice_error_counterexample :
    _parse_packet 0 (List.replicate 29 0) = .structError := by decide

/-- C7 as amended: for every slice of at least 28 bytes with an even
number of payload bytes, decode succeeds, interprets the payload as
little-endian signed 16-bit integers with sample count
`remaining_length / 2`; when the payload length is odd, decode fails with
the struct unpacking error (counted as a parse error by the caller) rather
than silently ignoring the trailing byte. -/
theorem decode_samples_amended (now : Int) (s : List Nat) :
    (28 ≤ s.length → (s.length - 28) % 2 = 0 →
      ∃ p, _parse_packet now s = .ok p ∧
        p.data.length = (s.length - 28) / 2 ∧
        ∀ k, k < (s.length - 28) / 2 →
          p.data.getD k 0 =
            i16ofBytes (get8 s (28 + 2 * k)) (get8 s (28 + 2 * k + 1))) ∧
    (28 ≤ s.length → (s.length - 28) % 2 = 1 →
      _parse_packet now s = .structError) := by
  constructor
  · intro h28 heven
    refine ⟨_, parse_packet_ok_eq now s h28 heven, ?_, ?_⟩
    · rw [decodeSamples_length]
      simp only [List.length_drop]
    · intro k hk
      have hk' : k < (s.drop 28).length / 2 := by
        simp only [List.length_drop]
        exact hk
      rw [decodeSamples_getD (s.drop 28) k hk']
      rw [show (s.drop 28).getD (2 * k) 0 = get8 (s.drop 28) (2 * k) from rfl,
        show (s.drop 28).getD (2 * k + 1) 0 = get8 (s.drop 28) (2 * k + 1) from rfl,
        get8_drop, get8_drop]
      rw [show 28 + (2 * k + 1) = 28 + 2 * k + 1 from by ring]
  · intro h28 hodd
    unfold _parse_packet HEADER_LENGTH
    rw [if_neg (by omega), if_pos (by omega)]

/-- Witness for C7 as amended: a 30-byte all-zero slice decodes to one
zero sample; a 29-byte slice fails with the struct error. -/
theorem decode_samples_amended_witness :
    (∃ p, _parse_packet 0 (List.replicate 30 0) = .ok p ∧
        p.data.length = 1 ∧
        ∀ k, k < 1 →
          p.data.getD k 0 =
            i16ofBytes (get8 (List.replicate 30 0) (28 + 2 * k))
              (get8 (List.replicate 30 0) (28 + 2 * k + 1))) ∧
    _parse_packet 0 (List.replicate 29 0) = .structError :=
  ⟨by
    have h := (decode_samples_amended 0 (List.replicate 30 0)).1
      (by decide) (by decide)
    simpa using h,
   (decode_samples_amended 0 (List.replicate 29 0)).2 (by decide) (by decide)⟩

/-! ## Claim C9 (corrected) -/

/-- Erase the capture timestamp of a decode outcome, for comparing decode
results modulo the clock reading. -/
def eraseTimestamp : ParseOutcome → ParseOutcome
  | .ok p => .ok { p with timestamp := 0 }
  | o => o

/-- Counterexample to C9 as stated: two decode calls on the same slice do
not return equal records — the capture timestamp field copies the
real-time clock reading at decode time (`time.time()`), which differs
between the calls (clock readings 0 and 1 here). -/
theorem decode_timestamp_counterexample :
    _parse_packet 0 (List.replicate 28 0) ≠
      _parse_packet 1 (List.replicate 28 0) := by decide

/-- C9 as amended: decode is deterministic apart from the capture
timestamp — two calls with the same slice agree on every field except
`timestamp`, which equals the clock reading passed at the call; and decode
mutates no state (in this embedding it is a function of the slice and the
clock reading only). -/
theorem decode_deterministic_mod_timestamp (now now' : Int) (s : List Nat) :
    eraseTimestamp (_parse_packet now s) =
      eraseTimestamp (_parse_packet now' s) ∧
    (∀ p, _parse_packet now s = .ok p → p.timestamp = now) := by
  constructor
  · unfold _parse_packet
    by_cases h1 : s.length < HEADER_LENGTH
    · rw [if_pos h1, if_pos h1]
    · rw [if_neg h1, if_neg h1]
      by_cases h2 : (s.length - HEADER_LENGTH) % 2 ≠ 0
      · rw [if_pos h2, if_pos h2]
      · rw [if_neg h2, if_neg h2]
        rfl
  · intro p hp
    unfold _parse_packet at hp
    by_cases h1 : s.length < HEADER_LENGTH
    · rw [if_pos h1] at hp
      cases hp
    · rw [if_neg h1] at hp
      by_cases h2 : (s.length - HEADER_LENGTH) % 2 ≠ 0
      · rw [if_pos h2] at hp
        cases hp
      · rw [if_neg h2] at hp
        cases hp
        rfl

/-- Witness for amended C9: decode at clock readings 0 and 5 on a concrete
28-byte slice agree modulo the timestamp, and the decoded record carries
the clock reading 0 it was decoded at. -/
theorem decode_deterministic_mod_timestamp_witness :
    eraseTimestamp (_parse_packet 0 (List.replicate 28 0)) =
      eraseTimestamp (_parse_packet 5 (List.replicate 28 0)) ∧
    ({ header := { magic := [0, 0, 0, 0], ctp := [0, 0, 0], length_lo := 0,
                   length_hi := 0, packet_number := 0, telemetry_a := 0,
                   telemetry_b := 0, telemetry_c := 0, is_full := 0,
                   buffer_fill := 0, ascan_count := 0, reserved_b := 0,
                   reserved_c := 0 },
       data := [], vector_length := 0, packet_size := 28,
       timestamp := 0 } : Packet).timestamp = 0 :=
  ⟨(decode_deterministic_mod_timestamp 0 5 (List.replicate 28 0)).1,
   (decode_deterministic_mod_timestamp 0 5 (List.replicate 28 0)).2 _ (by decide)⟩

/-! ## Claim C8 -/

theorem exists_len4 {l : List Nat} (h : l.length = 4) :
    ∃ a b c d, l = [a, b, c, d] := by
  match l with
  | [a, b, c, d] => exact ⟨a, b, c, d, rfl⟩
  | [] | [_] | [_, _] | [_, _, _] => simp at h
  | _ :: _ :: _ :: _ :: _ :: _ =>
    simp only [List.length_cons] at h
    omega

/-- Decoding a slice split as a 4-byte magic field followed by the rest:
every decoded field other than `magic` depends only on `rest`. -/
theorem parse_append_four (now : Int) (mm rest : List Nat)
    (hm : mm.length = 4) (hr : 24 ≤ rest.length)
    (heven : (rest.length - 24) % 2 = 0) :
    _parse_packet now (mm ++ rest) = .ok {
      header := {
        magic := mm
        ctp := [u32LE rest 0, u32LE rest 4, u32LE rest 8]
        length_lo := u16LE rest 12
        length_hi := get8 rest 14
        packet_number := get8 rest 15
        telemetry_a := get8 rest 16
        telemetry_b := get8 rest 17
        telemetry_c := get8 rest 18
        is_full := get8 rest 19
        buffer_fill := get8 rest 20
        ascan_count := get8 rest 21
        reserved_b := get8 rest 22
        reserved_c := get8 rest 23 }
      data := decodeSamples (rest.drop 24)
      vector_length := (decodeSamples (rest.drop 24)).length
      packet_size := 4 + rest.length
      timestamp := now } := by
  obtain ⟨a, b, c, d, rfl⟩ := exists_len4 hm
  have h28 : 28 ≤ ([a, b, c, d] ++ rest).length := by
    simp only [List.cons_append, List.nil_append, List.length_cons]
    omega
  have hev : (([a, b, c, d] ++ rest).length - 28) % 2 = 0 := by
    simp only [List.cons_append, List.nil_append, List.length_cons]
    omega
  rw [parse_packet_ok_eq now _ h28 hev]
  simp [u32LE, u16LE, get8, Packet.mk.injEq, Header.mk.injEq]
  omega

/-- Claim C8: for every slice of at least 28 bytes with an even number of
payload bytes, decode succeeds and returns a decoded record regardless of
the value of the 4-byte magic field at offset 0 — the magic field is parsed
and exposed but never compared against the marker constant as a
precondition for success.  Replacing the magic field changes only the
decoded `magic` value. -/
theorem decode_ignores_magic (now : Int) (m m' rest : List Nat)
    (hm : m.length = 4) (hm' : m'.length = 4) (hr : 24 ≤ rest.length)
    (heven : (rest.length - 24) % 2 = 0) :
    (∃ p, _parse_packet now (m ++ rest) = .ok p ∧ p.header.magic = m) ∧
    (∀ p, _parse_packet now (m ++ rest) = .ok p →
      _parse_packet now (m' ++ rest) =
        .ok { p with header := { p.header with magic := m' } }) := by
  have h1 := parse_append_four now m rest hm hr heven
  have h2 := parse_append_four now m' rest hm' hr heven
  refine ⟨⟨_, h1, rfl⟩, ?_⟩
  intro p hp
  rw [h1] at hp
  injection hp with hp
  subst hp
  rw [h2]

/-- Witness for C8: a slice with magic `[1,2,3,4]` (not the marker)
decodes successfully; swapping the magic to `[9,9,9,9]` changes only the
decoded magic field. -/
theorem decode_ignores_magic_witness :
    (∃ p, _parse_packet 0 ([1, 2, 3, 4] ++ List.replicate 24 0) = .ok p ∧
      p.header.magic = [1, 2, 3, 4]) ∧
    (∀ p, _parse_packet 0 ([1, 2, 3, 4] ++ List.replicate 24 0) = .ok p →
      _parse_packet 0 ([9, 9, 9, 9] ++ List.replicate 24 0) =
        .ok { p with header := { p.header with magic := [9, 9, 9, 9] } }) :=
  decode_ignores_magic 0 [1, 2, 3, 4] [9, 9, 9, 9] (List.replicate 24 0)
    (by decide) (by decide) (by decide) (by decide)

/-! ## Claim C2 -/

theorem i16Bytes_length_sum (samples : List Int) :
    (samples.map (List.length ∘ i16Bytes)).sum = 2 * samples.length := by
  induction samples with
  | nil => simp
  | cons v vs ih =>
    simp only [List.map_cons, List.sum_cons, ih, Function.comp_apply, i16Bytes,
      List.length_cons, List.length_nil]
    omega

theorem i16Bytes_flatten_length (samples : List Int) :
    ((samples.map i16Bytes).flatten).length = 2 * samples.length := by
  induction samples with
  | nil => simp
  | cons v vs ih =>
    simp only [List.map_cons, List.flatten_cons, List.length_append, ih,
      i16Bytes, List.length_cons, List.length_nil]
    omega

/-- Decoding the little-endian two's-complement encoding of in-range
signed 16-bit samples recovers exactly those samples. -/
theorem decodeSamples_i16Bytes (samples : List Int)
    (hs : ∀ v ∈ samples, -32768 ≤ v ∧ v < 32768) :
    decodeSamples ((samples.map i16Bytes).flatten) = samples := by
  induction samples with
  | nil => simp [decodeSamples]
  | cons v vs ih =>
    simp only [List.map_cons, List.flatten_cons, i16Bytes, List.cons_append,
      List.nil_append]
    rw [decodeSamples, ih (fun w hw => hs w (by simp [hw]))]
    have hv := hs v (by simp)
    have hmd : (v % 65536).toNat % 256 + 256 * ((v % 65536).toNat / 256) =
        (v % 65536).toNat := Nat.mod_add_div _ _
    have hfin : i16ofBytes ((v % 65536).toNat % 256) ((v % 65536).toNat / 256) = v := by
      simp only [i16ofBytes]
      rw [hmd]
      split <;> omega
    rw [hfin]

/-- Round trip: decoding the wire encoding of a header with in-range field
values followed by in-range samples reproduces exactly those values. -/
theorem parse_encodePacket (now : Int) (h : Header) (samples : List Int)
    (c0 c1 c2 : Nat) (hm : h.magic.length = 4) (hctp : h.ctp = [c0, c1, c2])
    (hc0 : c0 < 4294967296) (hc1 : c1 < 4294967296) (hc2 : c2 < 4294967296)
    (hlo : h.length_lo < 65536)
    (hs : ∀ v ∈ samples, -32768 ≤ v ∧ v < 32768) :
    _parse_packet now (encodePacket h samples) = .ok {
      header := h
      data := samples
      vector_length := samples.length
      packet_size := 28 + 2 * samples.length
      timestamp := now } := by
  obtain ⟨mg, ct, llo, lhi, pn, ta, tb, tc, ifl, bf, ac, rb, rc⟩ := h
  simp only at hm hctp hlo
  subst hctp
  have hrest :
      encodePacket (Header.mk mg [c0, c1, c2] llo lhi pn ta tb tc ifl bf ac rb rc)
          samples =
        mg ++ (u32Bytes c0 ++ u32Bytes c1 ++ u32Bytes c2 ++ u16Bytes llo ++
          [lhi, pn, ta, tb, tc, ifl, bf, ac, rb, rc] ++
          (samples.map i16Bytes).flatten) := by
    simp [encodePacket, encodeHeader]
  rw [hrest]
  have hlenrest : (u32Bytes c0 ++ u32Bytes c1 ++ u32Bytes c2 ++ u16Bytes llo ++
      [lhi, pn, ta, tb, tc, ifl, bf, ac, rb, rc] ++
      (samples.map i16Bytes).flatten).length = 24 + 2 * samples.length := by
    simp only [List.length_append, i16Bytes_flatten_length, u32Bytes, u16Bytes,
      List.length_cons, List.length_nil]
  rw [parse_append_four now mg _ hm (by omega) (by rw [hlenrest]; omega)]
  simp only [u32Bytes, u16Bytes, List.cons_append, List.nil_append]
  simp [u32LE, u16LE, get8, Packet.mk.injEq, Header.mk.injEq,
    decodeSamples_i16Bytes samples hs, i16Bytes_flatten_length,
    i16Bytes_length_sum]
  repeat' apply And.intro
  all_goals omega

/-- Claim C2: decoding a slice of exactly `packet_size` bytes built from
known header field values per the little-endian wire layout followed by N
little-endian signed 16-bit samples reproduces exactly those header field
values and sample values; concretely, with `ascan_length = 4` a packet
with `packet_number = 7` and samples `[100, -100, 32767, -32768]`,
ingested split as 10 + 10 + 16 bytes, produces one decoded packet with
`packet_number == 7` and those exact samples. -/
theorem decode_roundtrip (now : Int) (h : Header) (samples : List Int)
    (c0 c1 c2 : Nat) (hm : h.magic.length = 4) (hctp : h.ctp = [c0, c1, c2])
    (hc0 : c0 < 4294967296) (hc1 : c1 < 4294967296) (hc2 : c2 < 4294967296)
    (hlo : h.length_lo < 65536)
    (hs : ∀ v ∈ samples, -32768 ≤ v ∧ v < 32768) :
    _parse_packet now (encodePacket h samples) = .ok {
      header := h
      data := samples
      vector_length := samples.length
      packet_size := 28 + 2 * samples.length
      timestamp := now } ∧
    (runChunks 4 []
        [fixPacket.take 10, (fixPacket.drop 10).take 10, fixPacket.drop 20] =
      ([fixPacket], []) ∧
    ∃ p, _parse_packet now fixPacket = .ok p ∧
      p.header.packet_number = 7 ∧ p.data = [100, -100, 32767, -32768]) := by
  refine ⟨parse_encodePacket now h samples c0 c1 c2 hm hctp hc0 hc1 hc2 hlo hs,
    ?_, ?_⟩
  · have hrun := runChunks_replicate 4 fixPacket (by decide) (by decide)
      [fixPacket.take 10, (fixPacket.drop 10).take 10, fixPacket.drop 20]
      [] fixPacket 0 (by simp) (by decide) (by decide)
    simpa using hrun
  · have hfix := parse_encodePacket now fixHeader [100, -100, 32767, -32768]
      0 0 0 (by decide) (by decide) (by decide) (by decide) (by decide)
      (by decide) (by decide)
    exact ⟨_, by rw [fixPacket.eq_def]; exact hfix, rfl, rfl⟩

/-- Witness for C2: the round trip at the concrete fixture header and
samples, together with the concrete 10+10+16 chunked-ingest scenario. -/
theorem decode_roundtrip_witness :
    _parse_packet 0 (encodePacket fixHeader [100, -100, 32767, -32768]) = .ok {
      header := fixHeader
      data := [100, -100, 32767, -32768]
      vector_length := ([100, -100, 32767, -32768] : List Int).length
      packet_size := 28 + 2 * ([100, -100, 32767, -32768] : List Int).length
      timestamp := 0 } ∧
    (runChunks 4 []
        [fixPacket.take 10, (fixPacket.drop 10).take 10, fixPacket.drop 20] =
      ([fixPacket], []) ∧
    ∃ p, _parse_packet 0 fixPacket = .ok p ∧
      p.header.packet_number = 7 ∧ p.data = [100, -100, 32767, -32768]) :=
  decode_roundtrip 0 fixHeader [100, -100, 32767, -32768] 0 0 0
    (by decide) (by decide) (by decide) (by decide) (by decide) (by decide)
    (by decide)

/-! ## Claim C5 (corrected) -/

/-- A pass over a marker-free buffer: no slices; truncate only past the
`2 × packet_size` bound. -/
theorem extract_ready_no_marker (al : Nat) (buf : List Nat)
    (hnone : find MAGIC_BYTES buf = none) :
    extract_ready al buf =
      ([], if packet_size al * 2 < buf.length then
        buf.drop (buf.length - packet_size al) else buf) := by
  rw [extract_ready.eq_def, hnone]
  by_cases hbig : packet_size al * 2 < buf.length
  · rw [if_pos hbig, if_pos hbig]
  · rw [if_neg hbig, if_neg hbig]

/-- A slice of exactly `packet_size` bytes always decodes (its payload is
`2 × ascan_length` bytes — even — and the slice passes the header check). -/
theorem parse_slice_ok (al : Nat) (now : Int) (s : List Nat)
    (hlen : s.length = packet_size al) : ∃ p, _parse_packet now s = .ok p := by
  refine ⟨_, parse_packet_ok_eq now s ?_ ?_⟩
  · rw [hlen]
    exact packet_size_ge al
  · rw [hlen]
    simp only [packet_size, HEADER_LENGTH]
    omega

/-- If no marker occurrence starts before the packet's own marker in
`garbage ++ P`, then `garbage` alone contains no marker. -/
theorem find_garbage_none {garbage P : List Nat}
    (hg : ∀ i, i < garbage.length → ¬ MAGIC_BYTES <+: (garbage ++ P).drop i) :
    find MAGIC_BYTES garbage = none := by
  apply find_eq_none_iff.mpr
  intro i hp
  by_cases hi : i < garbage.length
  · apply hg i hi
    have hfull : (garbage ++ P).drop i = garbage.drop i ++ P.drop (i - garbage.length) := by
      rw [List.drop_append_eq_append_drop]
    have h0 : i - garbage.length = 0 := by omega
    rw [hfull, h0, List.drop_zero]
    exact hp.trans (List.prefix_append (garbage.drop i) P)
  · have hnil : garbage.drop i = [] := List.drop_eq_nil_of_le (by omega)
    rw [hnil] at hp
    have := hp.length_le
    simp [MAGIC_BYTES_length] at this

/-- Extraction on any suffix of `garbage ++ P` that still holds the whole
packet: the garbage prefix is discarded, the packet is yielded, the buffer
ends empty. -/
theorem extract_garbage_then_packet (al : Nat) {garbage P : List Nat}
    (hPlen : P.length = packet_size al) (hPpfx : MAGIC_BYTES <+: P)
    (hg : ∀ i, i < garbage.length → ¬ MAGIC_BYTES <+: (garbage ++ P).drop i)
    (k : Nat) (hk : k ≤ garbage.length) :
    extract_ready al ((garbage ++ P).drop k) = ([P], []) := by
  have hM : garbage.length + P.length = (garbage ++ P).length := by simp
  have hdropM : (garbage ++ P).drop garbage.length = P := List.drop_left garbage P
  have hfind : find MAGIC_BYTES ((garbage ++ P).drop k) =
      some (garbage.length - k) := by
    apply find_eq_some_iff.mpr
    constructor
    · rw [List.drop_drop, show k + (garbage.length - k) = garbage.length from by omega,
        hdropM]
      exact hPpfx
    · intro j hj
      rw [List.drop_drop]
      exact hg (k + j) (by omega)
  have hrest : ((garbage ++ P).drop k).drop (garbage.length - k) = P := by
    rw [List.drop_drop, show k + (garbage.length - k) = garbage.length from by omega,
      hdropM]
  have hnot : ¬ P.length < packet_size al := by omega
  rw [extract_ready.eq_def, hfind]
  dsimp only
  rw [hrest, dif_neg hnot, ← hPlen, List.take_length, List.drop_length,
    extract_ready_empty]

/-- Full effect of one message of marker-free garbage followed by one
message holding a complete valid packet, on the client state: exactly the
packet is delivered; the garbage is discarded; `packets_received` rises by
one, `bytes_received` by the raw byte count, and `parse_errors` — the only
error counter — is unchanged.  No field of the state records the discard. -/
theorem receive_garbage_then_packet (al : Nat) (now : Int) (c : ClientState)
    (P garbage : List Nat) (hbuf : c.stream_buffer = [])
    (hal : c.ascan_length = al)
    (hPlen : P.length = packet_size al) (hPpfx : MAGIC_BYTES <+: P)
    (hg : ∀ i, i < garbage.length → ¬ MAGIC_BYTES <+: (garbage ++ P).drop i) :
    runChunks al [] [garbage, P] = ([P], []) ∧
    (receive_message now c garbage).2 = [] ∧
    (receive_message now ((receive_message now c garbage).1) P).1 =
      { ascan_length := al, stream_buffer := []
        packets_received := c.packets_received + 1
        bytes_received := c.bytes_received + garbage.length + P.length
        parse_errors := c.parse_errors } := by
  have hfg : find MAGIC_BYTES garbage = none := find_garbage_none hg
  have hM := garbage.length
  have he1 : extract_ready al garbage =
      ([], if packet_size al * 2 < garbage.length then
        garbage.drop (garbage.length - packet_size al) else garbage) :=
    extract_ready_no_marker al garbage hfg
  -- the retained garbage suffix, uniform in both truncation branches
  set k : Nat := if packet_size al * 2 < garbage.length then
    garbage.length - packet_size al else 0 with hkdef
  have hk : k ≤ garbage.length := by
    rw [hkdef]
    split <;> omega
  have he1' : extract_ready al garbage = ([], garbage.drop k) := by
    rw [he1, hkdef]
    split <;> simp
  have hsfx : garbage.drop k ++ P = (garbage ++ P).drop k := by
    rw [List.drop_append_eq_append_drop, show k - garbage.length = 0 from by omega,
      List.drop_zero]
  have he2 : extract_ready al (garbage.drop k ++ P) = ([P], []) := by
    rw [hsfx]
    exact extract_garbage_then_packet al hPlen hPpfx hg k hk
  obtain ⟨p, hp⟩ := parse_slice_ok al now P hPlen
  refine ⟨?_, ?_, ?_⟩
  · simp only [runChunks, _process_incoming_data, List.nil_append, he1', he2]
    rfl
  · simp [receive_message, hbuf, hal, he1']
  · simp [receive_message, hbuf, hal, he1', he2, hp, ParseOutcome.toPacket,
      ParseOutcome.isError]

/-- Full effect of one message holding exactly one complete valid packet
on an empty buffer. -/
theorem receive_single_packet (al : Nat) (now : Int) (c : ClientState)
    (P : List Nat) (hbuf : c.stream_buffer = []) (hal : c.ascan_length = al)
    (hPlen : P.length = packet_size al) (hPpfx : MAGIC_BYTES <+: P) :
    (receive_message now c P).1 =
      { ascan_length := al, stream_buffer := []
        packets_received := c.packets_received + 1
        bytes_received := c.bytes_received + P.length
        parse_errors := c.parse_errors } := by
  have hPne : P ≠ [] := by
    intro h0
    have := congrArg List.length h0
    have hps := packet_size_ge al
    simp [hPlen] at this
    omega
  have he : extract_ready al P = ([P], []) := by
    have h := extract_ready_flatten al [P] []
      (by
        intro Q hQ
        rw [List.mem_singleton] at hQ
        subst hQ
        exact ⟨hPlen, hPpfx⟩)
      ⟨P, P, hPlen, hPpfx, by simp, hPne⟩
    simpa using h
  obtain ⟨p, hp⟩ := parse_slice_ok al now P hPlen
  simp [receive_message, hbuf, hal, he, hp, ParseOutcome.toPacket,
    ParseOutcome.isError]

/-- Counterexample to the counter clause of C5: the client statistics hold
exactly three counters (`packets_received`, `bytes_received`,
`parse_errors`, lines 102-105) and none of them records discarded garbage.
Ingesting one garbage byte and then a valid 28-byte packet leaves the
state with `parse_errors = 0` and the same `packets_received` as ingesting
the packet alone — the two final states differ only in the raw
`bytes_received` count, so no discard/garbage counter was incremented. -/
theorem no_garbage_counter_counterexample :
    (receive_message 0
        ((receive_message 0 ⟨0, [], 0, 0, 0⟩ [0]).1)
        (MAGIC_BYTES ++ List.replicate 24 0)).1 = ⟨0, [], 1, 29, 0⟩ ∧
    (receive_message 0 ⟨0, [], 0, 0, 0⟩
        (MAGIC_BYTES ++ List.replicate 24 0)).1 = ⟨0, [], 1, 28, 0⟩ := by
  constructor
  · have h := (receive_garbage_then_packet 0 0 ⟨0, [], 0, 0, 0⟩
      (MAGIC_BYTES ++ List.replicate 24 0) [0] rfl rfl (by decide) (by decide)
      (by decide)).2.2
    rw [h]
    decide
  · have h := receive_single_packet 0 0 ⟨0, [], 0, 0, 0⟩
      (MAGIC_BYTES ++ List.replicate 24 0) rfl rfl (by decide) (by decide)
    rw [h]
    decide

/-- C5 as amended: for every `M ≥ 1` and every run of `M` bytes which,
prepended to a valid packet, contains no marker occurrence before the
packet's own marker, ingesting those `M` bytes followed by the complete
packet yields exactly one ready slice equal to the packet, with the `M`
leading bytes discarded from the buffer and not reported as an error to
the caller; no discard/garbage counter exists, so none is incremented —
`parse_errors` is unchanged and `packets_received` counts only the
delivered packet. -/
theorem garbage_discard_resync (al : Nat) (now : Int) (c : ClientState)
    (P garbage : List Nat) (hbuf : c.stream_buffer = [])
    (hal : c.ascan_length = al) (hP : ValidPkt al P)
    (hM : 1 ≤ garbage.length)
    (hg : ∀ i, i < garbage.length → ¬ MAGIC_BYTES <+: (garbage ++ P).drop i) :
    runChunks al [] [garbage, P] = ([P], []) ∧
    (receive_message now c garbage).2 = [] ∧
    (receive_message now ((receive_message now c garbage).1) P).1.stream_buffer
      = [] ∧
    (receive_message now ((receive_message now c garbage).1) P).1.parse_errors
      = c.parse_errors ∧
    (receive_message now ((receive_message now c garbage).1) P).1.packets_received
      = c.packets_received + 1 := by
  obtain ⟨hPlen, hPpfx, -⟩ := hP
  have h := receive_garbage_then_packet al now c P garbage hbuf hal hPlen hPpfx hg
  exact ⟨h.1, h.2.1, by rw [h.2.2], by rw [h.2.2], by rw [h.2.2]⟩

/-- Witness for amended C5: one garbage byte `0` before a concrete
28-byte packet. -/
theorem garbage_discard_resync_witness :
    runChunks 0 [] [[0], MAGIC_BYTES ++ List.replicate 24 0] =
      ([MAGIC_BYTES ++ List.replicate 24 0], []) ∧
    (receive_message 0 (⟨0, [], 0, 0, 0⟩ : ClientState) [0]).2 = [] ∧
    (receive_message 0 ((receive_message 0 (⟨0, [], 0, 0, 0⟩ : ClientState) [0]).1)
        (MAGIC_BYTES ++ List.replicate 24 0)).1.stream_buffer = [] ∧
    (receive_message 0 ((receive_message 0 (⟨0, [], 0, 0, 0⟩ : ClientState) [0]).1)
        (MAGIC_BYTES ++ List.replicate 24 0)).1.parse_errors = 0 ∧
    (receive_message 0 ((receive_message 0 (⟨0, [], 0, 0, 0⟩ : ClientState) [0]).1)
        (MAGIC_BYTES ++ List.replicate 24 0)).1.packets_received = 0 + 1 :=
  garbage_discard_resync 0 0 ⟨0, [], 0, 0, 0⟩
    (MAGIC_BYTES ++ List.replicate 24 0) [0] rfl rfl
    (by unfold ValidPkt; exact ⟨by decide, by decide, by decide⟩)
    (by decide) (by decide)

/-! ## Claim C10 -/

/-- Claim C10: calling `set_ascan_length` with a length that is not
strictly positive, or equal to the currently configured `ascan_length`, is
a complete no-op — the whole client state, including the configured length
and the stream buffer with any retained partial packet, is left unchanged.
Only a strictly positive length different from the current one updates
`ascan_length` and clears the buffer (leaving the counters alone). -/
theorem set_ascan_length_frame (c : ClientState) (length : Int) :
    ((length ≤ 0 ∨ length = (c.ascan_length : Int)) →
      set_ascan_length c length = c) ∧
    (0 < length → length ≠ (c.ascan_length : Int) →
      set_ascan_length c length =
        { c with ascan_length := length.toNat, stream_buffer := [] }) := by
  constructor
  · intro h
    unfold set_ascan_length
    rw [if_neg]
    rintro ⟨h1, h2⟩
    rcases h with h | h
    · omega
    · exact h2 h
  · intro h1 h2
    unfold set_ascan_length
    rw [if_pos ⟨h1, h2⟩]

/-- Witness for C10: on a client with `ascan_length = 5` and a nonempty
buffer, a negative length and the current length are both no-ops, while
`7` updates the length and clears the buffer. -/
theorem set_ascan_length_frame_witness :
    set_ascan_length ⟨5, [1, 2], 3, 4, 5⟩ (-3) = ⟨5, [1, 2], 3, 4, 5⟩ ∧
    set_ascan_length ⟨5, [1, 2], 3, 4, 5⟩ 5 = ⟨5, [1, 2], 3, 4, 5⟩ ∧
    set_ascan_length ⟨5, [1, 2], 3, 4, 5⟩ 7 = ⟨7, [], 3, 4, 5⟩ :=
  ⟨(set_ascan_length_frame ⟨5, [1, 2], 3, 4, 5⟩ (-3)).1 (Or.inl (by decide)),
   (set_ascan_length_frame ⟨5, [1, 2], 3, 4, 5⟩ 5).1 (Or.inr (by decide)),
   (set_ascan_length_frame ⟨5, [1, 2], 3, 4, 5⟩ 7).2 (by decide) (by decide)⟩

end AScan
